import Mathlib

/-!
Shallow embedding of the numerical utilities in `snrv/utils.py`: the stable
symmetric inverse, the Cholesky-based generalized eigensolver and the
streaming correlation-matrix accumulator, together with theorems settling
the specification claims about them.

Linear-algebra library primitives (`torch.linalg.cholesky`,
`torch.linalg.eigh`, `torch.linalg.inv`, float `sqrt`) are modelled as
oracle parameters; their documented contracts appear as hypotheses of the
theorems, following the design note that they are trusted external
primitives. Exact rational arithmetic stands in for float arithmetic,
except where the behaviour of infinities matters, where an IEEE-754-style
value type with signed infinities and NaN is used.
-/

namespace Snrv

/-- Dynamically shaped rank-2 tensor: a shape plus a total entry function;
only entries with indices below the shape are meaningful. -/
structure Tensor2 where
  rows : ℕ
  cols : ℕ
  entry : ℕ → ℕ → ℚ

/-- Rank-1 tensor, e.g. the pathweight vector. -/
structure Tensor1 where
  len : ℕ
  entry : ℕ → ℚ

/-- torch `t()`. -/
def Tensor2.transposeT (a : Tensor2) : Tensor2 :=
  ⟨a.cols, a.rows, fun i j => a.entry j i⟩

/-- torch `matmul`. -/
def Tensor2.matmulT (a b : Tensor2) : Tensor2 :=
  ⟨a.rows, b.cols, fun i j => Finset.sum (Finset.range a.cols) fun k => a.entry i k * b.entry k j⟩

/-- torch `+=` on matching shapes. -/
def Tensor2.addT (a b : Tensor2) : Tensor2 :=
  ⟨a.rows, a.cols, fun i j => a.entry i j + b.entry i j⟩

/-- torch `multiply` (elementwise product). -/
def Tensor2.hadamard (a b : Tensor2) : Tensor2 :=
  ⟨b.rows, b.cols, fun i j => a.entry i j * b.entry i j⟩

/-- torch `tile(reshape(pathweight, (-1, 1)), (1, c))`: the pathweight
broadcast across `c` columns. -/
def tileW (p : Tensor1) (c : ℕ) : Tensor2 :=
  ⟨p.len, c, fun i _ => p.entry i⟩

/-- The two `assert` statements guarding `accumulate_correlation_matrices`:
`z_t0.size()[0] == z_tt.size()[0] == pathweight.size()[0]` and
`z_t0.size()[1] == z_tt.size()[1]`. -/
def accumulate_checks (z_t0 z_tt : Tensor2) (pathweight : Tensor1) : Prop :=
  (z_t0.rows = z_tt.rows ∧ z_tt.rows = pathweight.len) ∧ z_t0.cols = z_tt.cols

instance (z0 z1 : Tensor2) (p : Tensor1) : Decidable (accumulate_checks z0 z1 p) :=
  inferInstanceAs (Decidable (((z0.rows = z1.rows) ∧ (z1.rows = p.len)) ∧ (z0.cols = z1.cols)))

/-- The four accumulator updates performed after the asserts pass. -/
def accumulate_body (z_t0 z_tt : Tensor2) (pathweight : Tensor1)
    (C00 C01 C10 C11 : Tensor2) : Tensor2 × Tensor2 × Tensor2 × Tensor2 :=
  let W := tileW pathweight z_tt.cols
  let z_tt_r := Tensor2.hadamard W z_tt
  let z_t0_r := Tensor2.hadamard W z_t0
  (Tensor2.addT C00 (Tensor2.matmulT z_t0.transposeT z_t0_r),
   Tensor2.addT C01 (Tensor2.matmulT z_t0.transposeT z_tt_r),
   Tensor2.addT C10 (Tensor2.matmulT z_tt.transposeT z_t0_r),
   Tensor2.addT C11 (Tensor2.matmulT z_tt.transposeT z_tt_r))

/-- `accumulate_correlation_matrices(z_t0, z_tt, pathweight, C00, C01, C10,
C11)`; `none` models the AssertionError raised by the shape preconditions. -/
def accumulate_correlation_matrices (z_t0 z_tt : Tensor2) (pathweight : Tensor1)
    (C00 C01 C10 C11 : Tensor2) : Option (Tensor2 × Tensor2 × Tensor2 × Tensor2) :=
  if accumulate_checks z_t0 z_tt pathweight then
    some (accumulate_body z_t0 z_tt pathweight C00 C01 C10 C11)
  else none

/-- Row-wise concatenation of two batches (torch `cat` along dim 0). -/
def Tensor2.vcat (a b : Tensor2) : Tensor2 :=
  ⟨a.rows + b.rows, a.cols, fun i j => if i < a.rows then a.entry i j else b.entry (i - a.rows) j⟩

/-- Concatenation of two pathweight vectors. -/
def Tensor1.cat (p q : Tensor1) : Tensor1 :=
  ⟨p.len + q.len, fun i => if i < p.len then p.entry i else q.entry (i - p.len)⟩

/-- Zero-initialized square accumulator matrix. -/
def zeroT (m : ℕ) : Tensor2 := ⟨m, m, fun _ _ => 0⟩

/-- IEEE-754-style value: a finite rational, signed infinities and NaN, as
produced by float arithmetic on the diagonalized matrix. -/
inductive FVal where
  | num : ℚ → FVal
  | pinf : FVal
  | ninf : FVal
  | nan : FVal
deriving DecidableEq

/-- IEEE addition: opposite infinities give NaN, NaN propagates. -/
def FVal.add : FVal → FVal → FVal
  | nan, _ => nan
  | _, nan => nan
  | num a, num b => num (a + b)
  | num _, pinf => pinf
  | pinf, num _ => pinf
  | num _, ninf => ninf
  | ninf, num _ => ninf
  | pinf, pinf => pinf
  | ninf, ninf => ninf
  | pinf, ninf => nan
  | ninf, pinf => nan

/-- IEEE multiplication: zero times an infinity is NaN, NaN propagates. -/
def FVal.mul : FVal → FVal → FVal
  | nan, _ => nan
  | _, nan => nan
  | num a, num b => num (a * b)
  | num a, pinf => if 0 < a then pinf else if a < 0 then ninf else nan
  | pinf, num a => if 0 < a then pinf else if a < 0 then ninf else nan
  | num a, ninf => if 0 < a then ninf else if a < 0 then pinf else nan
  | ninf, num a => if 0 < a then ninf else if a < 0 then pinf else nan
  | pinf, pinf => pinf
  | ninf, ninf => pinf
  | pinf, ninf => ninf
  | ninf, pinf => ninf

/-- Fixed-order inner product of FVal vectors. -/
def fdot {n : ℕ} (f g : Fin n → FVal) : FVal :=
  (List.ofFn fun k => FVal.mul (f k) (g k)).foldr FVal.add (FVal.num 0)

/-- torch `matmul` on FVal matrices. -/
def fmatmul {n : ℕ} (A B : Fin n → Fin n → FVal) : Fin n → Fin n → FVal :=
  fun i j => fdot (fun k => A i k) (fun k => B k j)

/-- Inclusion of an exact rational matrix into FVal matrices. -/
def fofQ {n : ℕ} (M : Matrix (Fin n) (Fin n) ℚ) : Fin n → Fin n → FVal :=
  fun i j => FVal.num (M i j)

/-- torch `diag` of a vector. -/
def fdiag {n : ℕ} (d : Fin n → FVal) : Fin n → Fin n → FVal :=
  fun i j => if i = j then d i else FVal.num 0

/-- torch float `x ** (-1.0)`: zero maps to +inf. -/
def fpowNegOne (q : ℚ) : FVal :=
  if q = 0 then FVal.pinf else FVal.num q⁻¹

/-- torch float `x ** (-0.5)`; `sqrt` stands for the float square-root
primitive on positive arguments. Zero maps to +inf, negatives to NaN. -/
def fpowNegHalf (sqrt : ℚ → ℚ) (q : ℚ) : FVal :=
  if q = 0 then FVal.pinf else if q < 0 then FVal.nan else FVal.num (sqrt q)⁻¹

/-- `torch.finfo(torch.float32).eps`. -/
def feps32 : ℚ := 1 / 2 ^ 23

/-- `torch.allclose(X, Y, rtol, atol)` on square matrices: every entry obeys
the elementwise bound `abs (X - Y) ≤ atol + rtol * abs Y`. -/
def allcloseB {n : ℕ} (X Y : Matrix (Fin n) (Fin n) ℚ) (rtol atol : ℚ) : Bool :=
  decide (∀ i j, |X i j - Y i j| ≤ atol + rtol * |Y i j|)

/-- `stable_symmetric_inverse(A, ret_sqrt)`; `eigh` is the
`torch.linalg.eigh` primitive and `sqrt` the float square-root primitive.
`none` models the AssertionError from the symmetry precondition
`torch.allclose(A, A.t(), atol=1e-6)` (torch default rtol 1e-5). -/
def stable_symmetric_inverse {n : ℕ} (A : Matrix (Fin n) (Fin n) ℚ)
    (eigh : Matrix (Fin n) (Fin n) ℚ → ((Fin n → ℚ) × Matrix (Fin n) (Fin n) ℚ))
    (sqrt : ℚ → ℚ) (ret_sqrt : Bool) : Option (Fin n → Fin n → FVal) :=
  if allcloseB A A.transpose (1 / 100000) (1 / 1000000) then
    let wV := eigh A
    let w : Fin n → ℚ := fun i => if feps32 < wV.1 i then wV.1 i else 0
    if ret_sqrt then
      some (fmatmul (fofQ wV.2)
        (fmatmul (fdiag fun i => fpowNegHalf sqrt (w i)) (fofQ wV.2.transpose)))
    else
      some (fmatmul (fofQ wV.2)
        (fmatmul (fdiag fun i => fpowNegOne (w i)) (fofQ wV.2.transpose)))
  else none

/-- The ValueError message raised when the Cholesky factorization fails. -/
def cholErrMsg : String :=
  "Q matrix is not positive semi-definite. Try reducing the learning rate, increasing the batch size or asking for fewer CVs (decreasing output_size)"

/-- Column i of a square matrix, as a vector. -/
def colv {n : ℕ} (M : Matrix (Fin n) (Fin n) ℚ) (i : Fin n) : Fin n → ℚ :=
  fun k => M k i

/-- `gen_eig_chol(C, Q)`. `chol` is the outcome of `torch.linalg.cholesky(Q)`
(`none` models its RuntimeError on a non-positive-definite input, which the
source catches and re-raises as the domain ValueError), `matinv` is the
`torch.linalg.inv` primitive and `eigh` the `torch.linalg.eigh` primitive.
The final `torch.flip` of w along dim 0 and of v along dim 1 is index
reversal. -/
def gen_eig_chol {n : ℕ} (C Q : Matrix (Fin n) (Fin n) ℚ)
    (chol : Option (Matrix (Fin n) (Fin n) ℚ))
    (matinv : Matrix (Fin n) (Fin n) ℚ → Matrix (Fin n) (Fin n) ℚ)
    (eigh : Matrix (Fin n) (Fin n) ℚ → ((Fin n → ℚ) × Matrix (Fin n) (Fin n) ℚ)) :
    Except String ((Fin n → ℚ) × Matrix (Fin n) (Fin n) ℚ) :=
  match chol with
  | none => Except.error cholErrMsg
  | some L =>
    let Linv := matinv L
    let LTinv := matinv L.transpose
    let Ctilde := Linv * C * LTinv
    let p := eigh Ctilde
    let v := LTinv * p.2
    Except.ok (fun i => p.1 (Fin.rev i), v.submatrix id Fin.rev)

/-- Positive definiteness of a rational matrix. -/
def isPD {n : ℕ} (Q : Matrix (Fin n) (Fin n) ℚ) : Prop :=
  Q.transpose = Q ∧ ∀ x : Fin n → ℚ, x ≠ 0 → 0 < Matrix.dotProduct x (Q.mulVec x)

/-- Rank-deficient outer product of ones: symmetric but not positive
definite. -/
def Qex : Matrix (Fin 2) (Fin 2) ℚ := Matrix.of ![![1, 1], ![1, 1]]

/-- Ascending concrete eigenvalues for the eigensolver witnesses. -/
def w0ex : Fin 2 → ℚ := ![2, 3]

/-- Concrete symmetric data matrix for the eigensolver witnesses. -/
def Cex : Matrix (Fin 2) (Fin 2) ℚ := Matrix.diagonal w0ex

/-- Exact eigh oracle for Cex in the identity basis. -/
def eighEx : Matrix (Fin 2) (Fin 2) ℚ → ((Fin 2 → ℚ) × Matrix (Fin 2) (Fin 2) ℚ) :=
  fun _ => (w0ex, 1)

/-- Inversion oracle that is exact on the identity factor. -/
def invF : Matrix (Fin 2) (Fin 2) ℚ → Matrix (Fin 2) (Fin 2) ℚ := fun M => M

/-- Matrix asymmetric beyond atol 1e-6 but within the allclose rtol slack. -/
def Artol : Matrix (Fin 2) (Fin 2) ℚ := Matrix.of ![![0, 1 + 2 / 1000000], ![1, 0]]

/-- A junk eigh oracle; the symmetry guard does not consult it. -/
def eighJunk : Matrix (Fin 2) (Fin 2) ℚ → ((Fin 2 → ℚ) × Matrix (Fin 2) (Fin 2) ℚ) :=
  fun _ => (![0, 0], 1)

/-- The singular symmetric failing input diag(0, 1). -/
def Abug : Matrix (Fin 2) (Fin 2) ℚ := Matrix.of ![![0, 0], ![0, 1]]

/-- The eigh outcome at Abug: ascending eigenvalues (0, 1), identity basis. -/
def eighBug : Matrix (Fin 2) (Fin 2) ℚ → ((Fin 2 → ℚ) × Matrix (Fin 2) (Fin 2) ℚ) :=
  fun _ => (![0, 1], 1)

/-- Concrete batch data: a 2 by 2 identity frame. -/
def z0ex : Tensor2 :=
  ⟨2, 2, fun i j => if i = 0 then (if j = 0 then 1 else 0) else (if j = 0 then 0 else 1)⟩

/-- Concrete time-lagged batch data. -/
def z1ex : Tensor2 :=
  ⟨2, 2, fun i j => if i = 0 then (if j = 0 then 1 else 2) else (if j = 0 then 3 else 4)⟩

/-- A pathweight vector that is not identically one. -/
def pwex : Tensor1 := ⟨2, fun i => if i = 0 then 2 else 3⟩

/-- C01 entry of an accumulator result, defaulting to 0 on failure. -/
def getEntry01 (o : Option (Tensor2 × Tensor2 × Tensor2 × Tensor2)) (i j : ℕ) : ℚ :=
  match o with
  | some r => r.2.1.entry i j
  | none => 0

/-- C10 entry of an accumulator result, defaulting to 0 on failure. -/
def getEntry10 (o : Option (Tensor2 × Tensor2 × Tensor2 × Tensor2)) (i j : ℕ) : ℚ :=
  match o with
  | some r => r.2.2.1.entry i j
  | none => 0

/-- The accumulator result on the weighted example batch. -/
def rex : Option (Tensor2 × Tensor2 × Tensor2 × Tensor2) :=
  accumulate_correlation_matrices z0ex z1ex pwex (zeroT 2) (zeroT 2) (zeroT 2) (zeroT 2)

/-- Small batches used to witness additivity. -/
def wa0 : Tensor2 := ⟨1, 1, fun _ _ => 1⟩

/-- Small batches used to witness additivity. -/
def wa1 : Tensor2 := ⟨1, 1, fun _ _ => 2⟩

/-- Small batches used to witness additivity. -/
def wb0 : Tensor2 := ⟨1, 1, fun _ _ => 3⟩

/-- Small batches used to witness additivity. -/
def wb1 : Tensor2 := ⟨1, 1, fun _ _ => 4⟩

/-- Pathweights of the witness batches. -/
def wpa : Tensor1 := ⟨1, fun _ => 1⟩

/-- Pathweights of the witness batches. -/
def wpb : Tensor1 := ⟨1, fun _ => 5⟩

lemma accumulate_eq_some (z0 z1 : Tensor2) (p : Tensor1) (C00 C01 C10 C11 : Tensor2)
    (h : accumulate_checks z0 z1 p) :
    accumulate_correlation_matrices z0 z1 p C00 C01 C10 C11 =
      some (accumulate_body z0 z1 p C00 C01 C10 C11) := by
  unfold accumulate_correlation_matrices
  rw [if_pos h]

/-- C7: the accumulator fails with a precondition error exactly when the row
counts of z_t0, z_tt and pathweight do not all match or the column counts of
z_t0 and z_tt differ; when the shapes match no such error arises. -/
theorem accumulate_shape_guard (z0 z1 : Tensor2) (p : Tensor1) (C00 C01 C10 C11 : Tensor2) :
    accumulate_correlation_matrices z0 z1 p C00 C01 C10 C11 = none ↔
      ¬ ((z0.rows = z1.rows ∧ z1.rows = p.len) ∧ z0.cols = z1.cols) := by
  unfold accumulate_correlation_matrices
  by_cases h : accumulate_checks z0 z1 p
  · rw [if_pos h]
    simp only [accumulate_checks] at h
    simp [h]
  · rw [if_neg h]
    simp only [accumulate_checks] at h
    simp [h]

lemma addT_of_entry_zero (C X : Tensor2) (h : ∀ i j, X.entry i j = 0) :
    Tensor2.addT C X = C := by
  cases C with
  | mk r c e =>
    simp only [Tensor2.addT]
    congr 1
    funext i j
    rw [h, add_zero]

/-- C10: an empty batch (zero rows everywhere, matching column counts) passes
the precondition checks and leaves all four accumulators unchanged. -/
theorem accumulate_empty_batch (m : ℕ) (f g : ℕ → ℕ → ℚ) (q : ℕ → ℚ)
    (C00 C01 C10 C11 : Tensor2) :
    accumulate_correlation_matrices ⟨0, m, f⟩ ⟨0, m, g⟩ ⟨0, q⟩ C00 C01 C10 C11 =
      some (C00, C01, C10, C11) := by
  have hzero : ∀ (a b : Tensor2), a.cols = 0 → ∀ i j, (Tensor2.matmulT a b).entry i j = 0 := by
    intro a b h i j
    simp [Tensor2.matmulT, h]
  rw [accumulate_eq_some ⟨0, m, f⟩ ⟨0, m, g⟩ ⟨0, q⟩ C00 C01 C10 C11 ⟨⟨rfl, rfl⟩, rfl⟩]
  simp only [accumulate_body]
  rw [addT_of_entry_zero C00 _ (hzero _ _ rfl), addT_of_entry_zero C01 _ (hzero _ _ rfl),
    addT_of_entry_zero C10 _ (hzero _ _ rfl), addT_of_entry_zero C11 _ (hzero _ _ rfl)]

/-- C3 (amended): starting from zero accumulators, the C01 and C10 increments
are transposes of each other for every pathweight vector, not only the
unweighted one. -/
theorem accumulate_c01_c10_transpose (z0 z1 : Tensor2) (p : Tensor1)
    (h : (z0.rows = z1.rows ∧ z1.rows = p.len) ∧ z0.cols = z1.cols) :
    ∃ r : Tensor2 × Tensor2 × Tensor2 × Tensor2,
      accumulate_correlation_matrices z0 z1 p (zeroT z0.cols) (zeroT z0.cols)
          (zeroT z0.cols) (zeroT z0.cols) = some r ∧
        ∀ i j, r.2.1.entry i j = r.2.2.1.entry j i := by
  rw [accumulate_eq_some _ _ _ _ _ _ _ h]
  refine ⟨_, rfl, ?_⟩
  intro i j
  simp only [accumulate_body, Tensor2.addT, Tensor2.matmulT, Tensor2.transposeT,
    Tensor2.hadamard, tileW, zeroT]
  rw [zero_add, zero_add, h.1.1]
  exact Finset.sum_congr rfl fun k _ => by ring

/-- C3 counterexample: with pathweight (2, 3), not identically one, the C01
and C10 increments are still exact transposes of each other. -/
theorem accumulate_weighted_still_transpose :
    pwex.entry 0 ≠ 1 ∧ rex.isSome = true ∧
      getEntry01 rex 0 0 = getEntry10 rex 0 0 ∧
      getEntry01 rex 0 1 = getEntry10 rex 1 0 ∧
      getEntry01 rex 1 0 = getEntry10 rex 0 1 ∧
      getEntry01 rex 1 1 = getEntry10 rex 1 1 := by
  have hr : rex = some (accumulate_body z0ex z1ex pwex (zeroT 2) (zeroT 2) (zeroT 2) (zeroT 2)) :=
    accumulate_eq_some z0ex z1ex pwex (zeroT 2) (zeroT 2) (zeroT 2) (zeroT 2) ⟨⟨rfl, rfl⟩, rfl⟩
  refine ⟨by norm_num [pwex], ?_, ?_, ?_, ?_, ?_⟩ <;>
    · rw [hr]
      simp only [getEntry01, getEntry10, Option.isSome_some]
      try norm_num [accumulate_body, Tensor2.matmulT, Tensor2.addT, Tensor2.transposeT,
        Tensor2.hadamard, tileW, zeroT, z0ex, z1ex, pwex, Finset.sum_range_succ]

/-- C3 witness: the amended transpose relation applied to the weighted
example batch. -/
theorem accumulate_c01_c10_transpose_witness :
    ((z0ex.rows = z1ex.rows ∧ z1ex.rows = pwex.len) ∧ z0ex.cols = z1ex.cols) ∧
      ∃ r : Tensor2 × Tensor2 × Tensor2 × Tensor2,
        accumulate_correlation_matrices z0ex z1ex pwex (zeroT z0ex.cols) (zeroT z0ex.cols)
            (zeroT z0ex.cols) (zeroT z0ex.cols) = some r ∧
          ∀ i j, r.2.1.entry i j = r.2.2.1.entry j i :=
  ⟨by decide, accumulate_c01_c10_transpose z0ex z1ex pwex (by decide)⟩

lemma weighted_inc_split (u1 v1 u2 v2 : Tensor2) (p1 p2 : Tensor1)
    (hp : p1.len = u1.rows) (hv : v1.rows = u1.rows) (i j : ℕ) :
    (Finset.sum (Finset.range (u1.rows + u2.rows)) fun k =>
        (Tensor2.vcat u1 u2).entry k i *
          ((Tensor1.cat p1 p2).entry k * (Tensor2.vcat v1 v2).entry k j)) =
      (Finset.sum (Finset.range u1.rows) fun k =>
        u1.entry k i * (p1.entry k * v1.entry k j)) +
      Finset.sum (Finset.range u2.rows) fun k =>
        u2.entry k i * (p2.entry k * v2.entry k j) := by
  rw [Finset.sum_range_add]
  congr 1
  · refine Finset.sum_congr rfl fun k hk => ?_
    rw [Finset.mem_range] at hk
    simp only [Tensor2.vcat, Tensor1.cat]
    rw [hp, hv]
    simp [hk]
  · refine Finset.sum_congr rfl fun k _ => ?_
    simp only [Tensor2.vcat, Tensor1.cat]
    rw [hp, hv]
    have hnot : ¬ (u1.rows + k < u1.rows) := by omega
    simp [hnot, Nat.add_sub_cancel_left]

lemma addT_addT_of_split (C A B D : Tensor2)
    (h : ∀ i j, A.entry i j + B.entry i j = D.entry i j) :
    Tensor2.addT (Tensor2.addT C A) B = Tensor2.addT C D := by
  simp only [Tensor2.addT]
  congr 1
  funext i j
  rw [add_assoc, h]

/-- C6: accumulating two batches sequentially equals accumulating their
row-wise concatenation with concatenated pathweights, from the same initial
accumulators. -/
theorem accumulate_additive (a0 a1 b0 b1 : Tensor2) (pa pb : Tensor1)
    (C00 C01 C10 C11 : Tensor2)
    (ha : (a0.rows = a1.rows ∧ a1.rows = pa.len) ∧ a0.cols = a1.cols)
    (hb : (b0.rows = b1.rows ∧ b1.rows = pb.len) ∧ b0.cols = b1.cols)
    (hc : a0.cols = b0.cols) :
    Option.bind (accumulate_correlation_matrices a0 a1 pa C00 C01 C10 C11)
        (fun r => accumulate_correlation_matrices b0 b1 pb r.1 r.2.1 r.2.2.1 r.2.2.2) =
      accumulate_correlation_matrices (Tensor2.vcat a0 b0) (Tensor2.vcat a1 b1)
        (Tensor1.cat pa pb) C00 C01 C10 C11 := by
  have hcat : accumulate_checks (Tensor2.vcat a0 b0) (Tensor2.vcat a1 b1) (Tensor1.cat pa pb) := by
    refine ⟨⟨?_, ?_⟩, ?_⟩ <;> simp only [Tensor2.vcat, Tensor1.cat] <;> omega
  rw [accumulate_eq_some _ _ _ _ _ _ _ ha, Option.some_bind,
    accumulate_eq_some _ _ _ _ _ _ _ hb, accumulate_eq_some _ _ _ _ _ _ _ hcat]
  refine congrArg some ?_
  have hpa0 : pa.len = a0.rows := by omega
  have hpa1 : pa.len = a1.rows := by omega
  have h01 : a1.rows = a0.rows := by omega
  have h10 : a0.rows = a1.rows := by omega
  simp only [accumulate_body]
  refine Prod.ext ?_ (Prod.ext ?_ (Prod.ext ?_ ?_)) <;>
    · refine addT_addT_of_split _ _ _ _ fun i j => ?_
      simp only [Tensor2.matmulT, Tensor2.transposeT, Tensor2.hadamard, tileW, Tensor2.vcat,
        Tensor1.cat]
      first
      | exact (weighted_inc_split a0 a0 b0 b0 pa pb hpa0 rfl i j).symm
      | exact (weighted_inc_split a0 a1 b0 b1 pa pb hpa0 h01 i j).symm
      | exact (weighted_inc_split a1 a0 b1 b0 pa pb hpa1 h10 i j).symm
      | exact (weighted_inc_split a1 a1 b1 b1 pa pb hpa1 rfl i j).symm

/-- C8 (amended): the symmetry assertion fails exactly when some entry pair
violates the torch.allclose bound with atol 1e-6 and its default rtol 1e-5,
so in particular it passes for every A symmetric within atol 1e-6 alone. -/
theorem stable_symmetric_inverse_guard {n : ℕ} (A : Matrix (Fin n) (Fin n) ℚ)
    (eigh : Matrix (Fin n) (Fin n) ℚ → ((Fin n → ℚ) × Matrix (Fin n) (Fin n) ℚ))
    (sqrt : ℚ → ℚ) (ret_sqrt : Bool) :
    stable_symmetric_inverse A eigh sqrt ret_sqrt = none ↔
      ¬ ∀ i j, |A i j - A j i| ≤ 1 / 1000000 + 1 / 100000 * |A j i| := by
  have hb : (allcloseB A A.transpose (1 / 100000) (1 / 1000000) = true) ↔
      ∀ i j, |A i j - A j i| ≤ 1 / 1000000 + 1 / 100000 * |A j i| := by
    simp only [allcloseB, decide_eq_true_eq, Matrix.transpose_apply]
  unfold stable_symmetric_inverse
  by_cases hB : allcloseB A A.transpose (1 / 100000) (1 / 1000000) = true
  · rw [if_pos hB]
    constructor
    · intro hcontra
      cases ret_sqrt <;> simp at hcontra
    · intro hnot
      exact absurd (hb.mp hB) hnot
  · rw [if_neg hB]
    constructor
    · intro _ hall
      exact hB (hb.mpr hall)
    · intro _
      rfl

/-- C8 counterexample: Artol is not symmetric within absolute tolerance 1e-6
(the 0-1 entries differ by 2e-6), yet the assertion passes thanks to the
relative-tolerance slack and the function proceeds to return a result. -/
theorem stable_symmetric_inverse_guard_cex :
    ¬ (|Artol 0 1 - Artol 1 0| ≤ 1 / 1000000) ∧
      (stable_symmetric_inverse Artol eighJunk id false).isSome = true := by
  constructor
  · norm_num [Artol, abs_le, abs_of_pos]
  · have hguard : allcloseB Artol Artol.transpose (1 / 100000) (1 / 1000000) = true := by
      simp only [allcloseB, decide_eq_true_eq]
      intro i j
      fin_cases i <;> fin_cases j <;> norm_num [Artol, abs_le, abs_of_pos]
    unfold stable_symmetric_inverse
    simp only [hguard]
    simp

/-- C2: at the singular symmetric input diag(0, 1), with a genuine ascending
eigendecomposition supplied by the eigh oracle (first three conjuncts), the
eigenvalue zeroed by the threshold is then raised to the power -1.0,
producing +inf on the diagonal of the reprojected matrix and NaN off it:
the returned matrix does contain Inf and NaN entries. -/
theorem stable_symmetric_inverse_inf_bug :
    Abug = 1 * Matrix.diagonal ![0, 1] * (1 : Matrix (Fin 2) (Fin 2) ℚ).transpose ∧
      (1 : Matrix (Fin 2) (Fin 2) ℚ).transpose * 1 = 1 ∧
      (![0, 1] : Fin 2 → ℚ) 0 ≤ (![0, 1] : Fin 2 → ℚ) 1 ∧
      Option.map (fun B => B 0 0) (stable_symmetric_inverse Abug eighBug id false) =
        some FVal.pinf ∧
      Option.map (fun B => B 1 0) (stable_symmetric_inverse Abug eighBug id false) =
        some FVal.nan := by
  have hguard : allcloseB Abug Abug.transpose (1 / 100000) (1 / 1000000) = true := by
    simp only [allcloseB, decide_eq_true_eq]
    intro i j
    fin_cases i <;> fin_cases j <;> norm_num [Abug, abs_le]
  have heps0 : ¬ (feps32 < (0 : ℚ)) := by norm_num [feps32]
  have heps1 : feps32 < (1 : ℚ) := by norm_num [feps32]
  refine ⟨?_, ?_, ?_, ?_, ?_⟩
  · rw [Matrix.transpose_one, Matrix.mul_one, Matrix.one_mul]
    ext i j
    fin_cases i <;> fin_cases j <;> simp [Abug, Matrix.diagonal]
  · rw [Matrix.transpose_one, Matrix.mul_one]
  · norm_num
  · unfold stable_symmetric_inverse
    simp only [hguard]
    simp only [eighBug]
    simp [fmatmul, fdot, fofQ, fdiag, fpowNegOne, List.ofFn_succ, List.ofFn_zero,
      heps0, heps1, FVal.add, FVal.mul, Matrix.one_apply]
  · unfold stable_symmetric_inverse
    simp only [hguard]
    simp only [eighBug]
    simp [fmatmul, fdot, fofQ, fdiag, fpowNegOne, List.ofFn_succ, List.ofFn_zero,
      heps0, heps1, FVal.add, FVal.mul, Matrix.one_apply]

/-- C6 witness: additivity at concrete one-row batches with a non-unit
pathweight on the second batch. -/
theorem accumulate_additive_witness :
    ((wa0.rows = wa1.rows ∧ wa1.rows = wpa.len) ∧ wa0.cols = wa1.cols) ∧
      ((wb0.rows = wb1.rows ∧ wb1.rows = wpb.len) ∧ wb0.cols = wb1.cols) ∧
      wa0.cols = wb0.cols ∧
      Option.bind (accumulate_correlation_matrices wa0 wa1 wpa (zeroT 1) (zeroT 1) (zeroT 1) (zeroT 1))
          (fun r => accumulate_correlation_matrices wb0 wb1 wpb r.1 r.2.1 r.2.2.1 r.2.2.2) =
        accumulate_correlation_matrices (Tensor2.vcat wa0 wb0) (Tensor2.vcat wa1 wb1)
          (Tensor1.cat wpa wpb) (zeroT 1) (zeroT 1) (zeroT 1) (zeroT 1) :=
  ⟨by decide, by decide, by decide,
    accumulate_additive wa0 wa1 wb0 wb1 wpa wpb (zeroT 1) (zeroT 1) (zeroT 1) (zeroT 1)
      (by decide) (by decide) (by decide)⟩

lemma colv_mul {n : ℕ} (A B : Matrix (Fin n) (Fin n) ℚ) (i : Fin n) :
    colv (A * B) i = A.mulVec (colv B i) := by
  funext k
  simp [colv, Matrix.mul_apply, Matrix.mulVec, Matrix.dotProduct]

lemma colv_submatrix_rev {n : ℕ} (M : Matrix (Fin n) (Fin n) ℚ) (i : Fin n) :
    colv (M.submatrix id Fin.rev) i = colv M (Fin.rev i) := rfl

lemma colv_one {n : ℕ} (i : Fin n) :
    colv (1 : Matrix (Fin n) (Fin n) ℚ) i = Pi.single i 1 := by
  funext k
  simp only [colv]
  rw [Matrix.one_apply, Pi.single_apply]

lemma diag_pair {n : ℕ} (d : Fin n → ℚ) (i : Fin n) :
    (Matrix.diagonal d).mulVec (colv 1 i) = d i • colv 1 i := by
  rw [colv_one, Matrix.diagonal_mulVec_single]
  funext k
  simp [Pi.single_apply, mul_ite]

lemma chol_core {n : ℕ} (C Q L Li LTi : Matrix (Fin n) (Fin n) ℚ)
    (hQ : Q = L * L.transpose) (hLi : L * Li = 1) (hLTi : L.transpose * LTi = 1)
    (w : ℚ) (x : Fin n → ℚ) (hx : (Li * C * LTi).mulVec x = w • x) :
    C.mulVec (LTi.mulVec x) = w • Q.mulVec (LTi.mulVec x) := by
  have h2 : L * (Li * C * LTi) = C * LTi := by
    rw [← mul_assoc, ← mul_assoc, hLi, one_mul]
  have h4 : Q * LTi = L := by
    rw [hQ, mul_assoc, hLTi, mul_one]
  have h1 : L.mulVec ((Li * C * LTi).mulVec x) = L.mulVec (w • x) := by rw [hx]
  rw [Matrix.mulVec_mulVec, Matrix.mulVec_smul, h2] at h1
  rw [Matrix.mulVec_mulVec, Matrix.mulVec_mulVec, h4, h1]

/-- C1: whenever the Cholesky, inversion and eigendecomposition primitives
meet their contracts on symmetric C and positive-definite Q, the returned
pair satisfies the generalized eigenvalue equation C·v_i = w_i·Q·v_i for
every column i, exactly in exact arithmetic. -/
theorem gen_eig_chol_solves {n : ℕ} (C Q L : Matrix (Fin n) (Fin n) ℚ)
    (matinv : Matrix (Fin n) (Fin n) ℚ → Matrix (Fin n) (Fin n) ℚ)
    (eigh : Matrix (Fin n) (Fin n) ℚ → ((Fin n → ℚ) × Matrix (Fin n) (Fin n) ℚ))
    (w0 : Fin n → ℚ) (vt : Matrix (Fin n) (Fin n) ℚ)
    (hQ : Q = L * L.transpose)
    (hLi : L * matinv L = 1)
    (hLTi : L.transpose * matinv L.transpose = 1)
    (hE : eigh (matinv L * C * matinv L.transpose) = (w0, vt))
    (hpairs : ∀ i, (matinv L * C * matinv L.transpose).mulVec (colv vt i) =
      w0 i • colv vt i) :
    ∃ w v, gen_eig_chol C Q (some L) matinv eigh = Except.ok (w, v) ∧
      ∀ i, C.mulVec (colv v i) = w i • Q.mulVec (colv v i) := by
  have hrun : gen_eig_chol C Q (some L) matinv eigh =
      Except.ok (fun i => w0 (Fin.rev i),
        (matinv L.transpose * vt).submatrix id Fin.rev) := by
    simp only [gen_eig_chol, hE]
  refine ⟨_, _, hrun, ?_⟩
  intro i
  have hcore := chol_core C Q L (matinv L) (matinv L.transpose) hQ hLi hLTi
    (w0 (Fin.rev i)) (colv vt (Fin.rev i)) (hpairs (Fin.rev i))
  simpa [colv_submatrix_rev, colv_mul] using hcore

/-- C5: with an ascending eigh primitive, the returned w is sorted
non-ascending and the reordering is mirrored exactly in the columns of v:
column i of v still pairs with w i in the generalized eigenvalue equation. -/
theorem gen_eig_chol_ordering {n : ℕ} (C Q L : Matrix (Fin n) (Fin n) ℚ)
    (matinv : Matrix (Fin n) (Fin n) ℚ → Matrix (Fin n) (Fin n) ℚ)
    (eigh : Matrix (Fin n) (Fin n) ℚ → ((Fin n → ℚ) × Matrix (Fin n) (Fin n) ℚ))
    (w0 : Fin n → ℚ) (vt : Matrix (Fin n) (Fin n) ℚ)
    (hQ : Q = L * L.transpose)
    (hLi : L * matinv L = 1)
    (hLTi : L.transpose * matinv L.transpose = 1)
    (hE : eigh (matinv L * C * matinv L.transpose) = (w0, vt))
    (hpairs : ∀ i, (matinv L * C * matinv L.transpose).mulVec (colv vt i) =
      w0 i • colv vt i)
    (hasc : ∀ i j : Fin n, i ≤ j → w0 i ≤ w0 j) :
    ∃ w v, gen_eig_chol C Q (some L) matinv eigh = Except.ok (w, v) ∧
      (∀ i j : Fin n, i ≤ j → w j ≤ w i) ∧
      ∀ i, C.mulVec (colv v i) = w i • Q.mulVec (colv v i) := by
  have hrun : gen_eig_chol C Q (some L) matinv eigh =
      Except.ok (fun i => w0 (Fin.rev i),
        (matinv L.transpose * vt).submatrix id Fin.rev) := by
    simp only [gen_eig_chol, hE]
  refine ⟨_, _, hrun, ?_, ?_⟩
  · intro i j hij
    exact hasc (Fin.rev j) (Fin.rev i) (Fin.rev_le_rev.mpr hij)
  · intro i
    have hcore := chol_core C Q L (matinv L) (matinv L.transpose) hQ hLi hLTi
      (w0 (Fin.rev i)) (colv vt (Fin.rev i)) (hpairs (Fin.rev i))
    simpa [colv_submatrix_rev, colv_mul] using hcore

/-- C9: gen_eig_chol performs no symmetry check on C: for any C whatsoever,
once the Cholesky factorization of Q succeeds the call returns a result and
raises nothing. -/
theorem gen_eig_chol_no_symmetry_check {n : ℕ} (C Q L : Matrix (Fin n) (Fin n) ℚ)
    (matinv : Matrix (Fin n) (Fin n) ℚ → Matrix (Fin n) (Fin n) ℚ)
    (eigh : Matrix (Fin n) (Fin n) ℚ → ((Fin n → ℚ) × Matrix (Fin n) (Fin n) ℚ)) :
    ∃ wv, gen_eig_chol C Q (some L) matinv eigh = Except.ok wv :=
  ⟨_, rfl⟩

/-- C4: when Q is not positive definite, the Cholesky primitive fails
(contract: it only succeeds on positive-definite input) and gen_eig_chol
surfaces the catchable domain error carrying the remediation message, for
every C. -/
theorem gen_eig_chol_not_pd_error {n : ℕ} (C Q : Matrix (Fin n) (Fin n) ℚ)
    (chol : Option (Matrix (Fin n) (Fin n) ℚ))
    (matinv : Matrix (Fin n) (Fin n) ℚ → Matrix (Fin n) (Fin n) ℚ)
    (eigh : Matrix (Fin n) (Fin n) ℚ → ((Fin n → ℚ) × Matrix (Fin n) (Fin n) ℚ))
    (hcontract : ∀ L, chol = some L → isPD Q)
    (hnpd : ¬ isPD Q) :
    gen_eig_chol C Q chol matinv eigh = Except.error cholErrMsg := by
  cases chol with
  | none => rfl
  | some L => exact absurd (hcontract L rfl) hnpd

lemma Qex_not_pd : ¬ isPD Qex := by
  intro h
  have h2 := h.2 ![1, -1] (by decide)
  have h3 : Matrix.dotProduct ![1, -1] (Qex.mulVec ![1, -1]) = 0 := by
    norm_num [Qex, Matrix.dotProduct, Matrix.mulVec, Fin.sum_univ_two]
  rw [h3] at h2
  exact lt_irrefl 0 h2

/-- C4 witness: at the rank-deficient outer product of ones, where the
Cholesky oracle fails, the domain error is returned. -/
theorem gen_eig_chol_not_pd_error_witness :
    (¬ isPD Qex) ∧
      gen_eig_chol 1 Qex none invF eighJunk = Except.error cholErrMsg :=
  ⟨Qex_not_pd,
    gen_eig_chol_not_pd_error 1 Qex none invF eighJunk
      (fun L h => Option.noConfusion h) Qex_not_pd⟩

/-- C1 witness: C = diag(2, 3), Q = 1, identity Cholesky factor, exact
oracles; the generalized eigenvalue equation holds for the output. -/
theorem gen_eig_chol_solves_witness :
    ((1 : Matrix (Fin 2) (Fin 2) ℚ) = 1 * (1 : Matrix (Fin 2) (Fin 2) ℚ).transpose) ∧
      ((1 : Matrix (Fin 2) (Fin 2) ℚ) * invF 1 = 1) ∧
      ((1 : Matrix (Fin 2) (Fin 2) ℚ).transpose *
        invF (1 : Matrix (Fin 2) (Fin 2) ℚ).transpose = 1) ∧
      (eighEx (invF 1 * Cex * invF (1 : Matrix (Fin 2) (Fin 2) ℚ).transpose) = (w0ex, 1)) ∧
      (∀ i, (invF 1 * Cex * invF (1 : Matrix (Fin 2) (Fin 2) ℚ).transpose).mulVec (colv 1 i) =
        w0ex i • colv 1 i) ∧
      ∃ w v, gen_eig_chol Cex 1 (some 1) invF eighEx = Except.ok (w, v) ∧
        ∀ i, Cex.mulVec (colv v i) = w i • (1 : Matrix (Fin 2) (Fin 2) ℚ).mulVec (colv v i) := by
  have h1 : (1 : Matrix (Fin 2) (Fin 2) ℚ) = 1 * (1 : Matrix (Fin 2) (Fin 2) ℚ).transpose := by
    rw [Matrix.transpose_one, Matrix.mul_one]
  have h2 : (1 : Matrix (Fin 2) (Fin 2) ℚ) * invF 1 = 1 := mul_one 1
  have h3 : (1 : Matrix (Fin 2) (Fin 2) ℚ).transpose *
      invF (1 : Matrix (Fin 2) (Fin 2) ℚ).transpose = 1 := by
    rw [Matrix.transpose_one]
    exact mul_one 1
  have hC : invF 1 * Cex * invF (1 : Matrix (Fin 2) (Fin 2) ℚ).transpose = Cex := by
    show (1 : Matrix (Fin 2) (Fin 2) ℚ) * Cex * (1 : Matrix (Fin 2) (Fin 2) ℚ).transpose = Cex
    rw [Matrix.transpose_one, Matrix.mul_one, Matrix.one_mul]
  have hp : ∀ i, (invF 1 * Cex * invF (1 : Matrix (Fin 2) (Fin 2) ℚ).transpose).mulVec
      (colv 1 i) = w0ex i • colv 1 i := by
    intro i
    rw [hC]
    exact diag_pair w0ex i
  exact ⟨h1, h2, h3, rfl, hp, gen_eig_chol_solves Cex 1 1 invF eighEx w0ex 1 h1 h2 h3 rfl hp⟩

/-- C5 witness: the same concrete instance, with ascending oracle order
(2, 3); the output order is non-ascending and columns still pair with
eigenvalues. -/
theorem gen_eig_chol_ordering_witness :
    ((1 : Matrix (Fin 2) (Fin 2) ℚ) = 1 * (1 : Matrix (Fin 2) (Fin 2) ℚ).transpose) ∧
      ((1 : Matrix (Fin 2) (Fin 2) ℚ) * invF 1 = 1) ∧
      ((1 : Matrix (Fin 2) (Fin 2) ℚ).transpose *
        invF (1 : Matrix (Fin 2) (Fin 2) ℚ).transpose = 1) ∧
      (eighEx (invF 1 * Cex * invF (1 : Matrix (Fin 2) (Fin 2) ℚ).transpose) = (w0ex, 1)) ∧
      (∀ i, (invF 1 * Cex * invF (1 : Matrix (Fin 2) (Fin 2) ℚ).transpose).mulVec (colv 1 i) =
        w0ex i • colv 1 i) ∧
      (∀ i j : Fin 2, i ≤ j → w0ex i ≤ w0ex j) ∧
      ∃ w v, gen_eig_chol Cex 1 (some 1) invF eighEx = Except.ok (w, v) ∧
        (∀ i j : Fin 2, i ≤ j → w j ≤ w i) ∧
        ∀ i, Cex.mulVec (colv v i) = w i • (1 : Matrix (Fin 2) (Fin 2) ℚ).mulVec (colv v i) := by
  have h1 : (1 : Matrix (Fin 2) (Fin 2) ℚ) = 1 * (1 : Matrix (Fin 2) (Fin 2) ℚ).transpose := by
    rw [Matrix.transpose_one, Matrix.mul_one]
  have h2 : (1 : Matrix (Fin 2) (Fin 2) ℚ) * invF 1 = 1 := mul_one 1
  have h3 : (1 : Matrix (Fin 2) (Fin 2) ℚ).transpose *
      invF (1 : Matrix (Fin 2) (Fin 2) ℚ).transpose = 1 := by
    rw [Matrix.transpose_one]
    exact mul_one 1
  have hC : invF 1 * Cex * invF (1 : Matrix (Fin 2) (Fin 2) ℚ).transpose = Cex := by
    show (1 : Matrix (Fin 2) (Fin 2) ℚ) * Cex * (1 : Matrix (Fin 2) (Fin 2) ℚ).transpose = Cex
    rw [Matrix.transpose_one, Matrix.mul_one, Matrix.one_mul]
  have hp : ∀ i, (invF 1 * Cex * invF (1 : Matrix (Fin 2) (Fin 2) ℚ).transpose).mulVec
      (colv 1 i) = w0ex i • colv 1 i := by
    intro i
    rw [hC]
    exact diag_pair w0ex i
  have hasc : ∀ i j : Fin 2, i ≤ j → w0ex i ≤ w0ex j := by
    intro i j hij
    fin_cases i <;> fin_cases j
    · norm_num [w0ex]
    · norm_num [w0ex]
    · exact absurd hij (by decide)
    · norm_num [w0ex]
  exact ⟨h1, h2, h3, rfl, hp, hasc,
    gen_eig_chol_ordering Cex 1 1 invF eighEx w0ex 1 h1 h2 h3 rfl hp hasc⟩

end Snrv
